import Mathlib

/-!
Verification of the in-memory engineer record store and its service layer
(`src/fastapi_oop_example.py`).

The Python classes are shallowly embedded as pure Lean functions:

* the `InMemoryEngineerRepository` object (a `dict` from integer ids to
  `Engineer` values plus a `_next_id` counter) becomes an explicit state
  structure; the Python `dict` (insertion ordered, unique keys) is modelled
  by an insertion-ordered list of records keyed by the `id` field;
* raising an exception becomes returning `Except.error` paired with the
  state at the point of the raise;
* `datetime.now()` becomes an explicit `now : Nat` argument;
* Python `float` rates become `ℚ`.
-/

/-- Certification levels, `class CertificationLevel(str, Enum)`. -/
inductive CertificationLevel where
  | junior
  | mid
  | senior
  | expert
deriving DecidableEq

/-- Iteration order of `for level in CertificationLevel` in Python
(declaration order of the enum members). -/
def CertificationLevel.all : List CertificationLevel :=
  [.junior, .mid, .senior, .expert]

/-- The `.value` string of each enum member. -/
def CertificationLevel.value : CertificationLevel → String
  | .junior => "junior"
  | .mid => "mid"
  | .senior => "senior"
  | .expert => "expert"

/-- Cloud platforms, `class CloudPlatform(str, Enum)`. -/
inductive CloudPlatform where
  | azure
  | aws
  | gcp
deriving DecidableEq

/-- The domain entity `class Engineer`.  `created_at` is an abstract clock
value (the code stores a `datetime`). -/
structure Engineer where
  id : Nat
  name : String
  email : String
  specialty : String
  hourly_rate : ℚ
  certification_level : CertificationLevel
  certifications : List String
  is_available : Bool
  created_at : Nat
deriving DecidableEq

/-- `Engineer.add_certification`: append the code unless already present. -/
def Engineer.add_certification (e : Engineer) (cert_code : String) : Engineer :=
  if cert_code ∈ e.certifications then e
  else { e with certifications := e.certifications ++ [cert_code] }

/-- `Engineer.calculate_monthly_revenue` (the Python default argument is
`hours_per_month = 160`; callers in the embedded code pass it explicitly). -/
def Engineer.calculate_monthly_revenue (e : Engineer) (hours_per_month : Nat) : ℚ :=
  e.hourly_rate * hours_per_month

/-- The per-platform certification prefixes of `Engineer.can_work_on_platform`. -/
def platform_prefixes : CloudPlatform → String
  | .azure => "AZ-"
  | .aws => "AWS-"
  | .gcp => "GCP-"

/-- `Engineer.can_work_on_platform`. -/
def Engineer.can_work_on_platform (e : Engineer) (platform : CloudPlatform) : Bool :=
  e.certifications.any (fun cert => cert.startsWith (platform_prefixes platform))

/-- The two domain exceptions of the module
(`EngineerNotFoundError`, `EngineerAlreadyExistsError`). -/
inductive DomainError where
  | engineerNotFound
  | engineerAlreadyExists
deriving DecidableEq

/-- The request schema `EngineerCreate` (field validation is performed by the
excluded Pydantic collaborator, so only the field values appear here). -/
structure EngineerCreate where
  name : String
  email : String
  specialty : String
  hourly_rate : ℚ
  certification_level : CertificationLevel
deriving DecidableEq

/-- The partial-update schema `EngineerUpdate`: every field optional, `none`
meaning "not set" (Pydantic `exclude_unset`). -/
structure EngineerUpdate where
  name : Option String
  email : Option String
  specialty : Option String
  hourly_rate : Option ℚ
  certification_level : Option CertificationLevel
  is_available : Option Bool
deriving DecidableEq

/-- The request schema `CertificationCreate`. -/
structure CertificationCreate where
  cert_code : String
  platform : CloudPlatform
deriving DecidableEq

/-- State of `InMemoryEngineerRepository`: the `self._engineers` dict is an
insertion-ordered list of records keyed by their `id` field, and
`self._next_id` the id counter (initially 1). -/
structure InMemoryEngineerRepository where
  engineers : List Engineer
  next_id : Nat
deriving DecidableEq

/-- A fresh repository (`__init__`). -/
def InMemoryEngineerRepository.empty : InMemoryEngineerRepository :=
  { engineers := [], next_id := 1 }

/-- Python dict assignment `self._engineers[eng.id] = eng`: replace the value
at an existing key in place, otherwise append at the end. -/
def dictSet (es : List Engineer) (eng : Engineer) : List Engineer :=
  if es.any (fun e => e.id == eng.id) then
    es.map (fun e => if e.id == eng.id then eng else e)
  else
    es ++ [eng]

/-- Python `del self._engineers[i]` (on lists with unique keys). -/
def dictDelete (es : List Engineer) (i : Nat) : List Engineer :=
  es.filter (fun e => !(e.id == i))

namespace InMemoryEngineerRepository

/-- `get_by_id`: `self._engineers.get(engineer_id)`. -/
def get_by_id (r : InMemoryEngineerRepository) (engineer_id : Nat) : Option Engineer :=
  r.engineers.find? (fun e => e.id == engineer_id)

/-- `get_by_email`: first stored record with the given email, else `None`. -/
def get_by_email (r : InMemoryEngineerRepository) (email : String) : Option Engineer :=
  r.engineers.find? (fun e => e.email == email)

/-- `get_all`: `list(self._engineers.values())`. -/
def get_all (r : InMemoryEngineerRepository) : List Engineer :=
  r.engineers

/-- `create`: raise `EngineerAlreadyExistsError` if a record with the same
email exists; otherwise overwrite the id with `next_id`, store, increment
the counter, return the stored record.  The second component is the state
at return or at the point of the raise. -/
def create (r : InMemoryEngineerRepository) (engineer : Engineer) :
    Except DomainError Engineer × InMemoryEngineerRepository :=
  match r.get_by_email engineer.email with
  | some _ => (.error .engineerAlreadyExists, r)
  | none =>
    let stored := { engineer with id := r.next_id }
    (.ok stored,
      { engineers := dictSet r.engineers stored, next_id := r.next_id + 1 })

/-- `update`: raise `EngineerNotFoundError` if `engineer.id` is not a stored
key, else assign the record at that key and return it. -/
def update (r : InMemoryEngineerRepository) (engineer : Engineer) :
    Except DomainError Engineer × InMemoryEngineerRepository :=
  if r.engineers.any (fun e => e.id == engineer.id) then
    (.ok engineer, { r with engineers := dictSet r.engineers engineer })
  else
    (.error .engineerNotFound, r)

/-- `delete`: remove the key if present and report whether a removal
occurred; never raises. -/
def delete (r : InMemoryEngineerRepository) (engineer_id : Nat) :
    Bool × InMemoryEngineerRepository :=
  if r.engineers.any (fun e => e.id == engineer_id) then
    (true, { r with engineers := dictDelete r.engineers engineer_id })
  else
    (false, r)

/-- `find_available`: all stored records with `is_available`. -/
def find_available (r : InMemoryEngineerRepository) : List Engineer :=
  r.engineers.filter (fun e => e.is_available)

end InMemoryEngineerRepository

/-- Abbreviation used throughout the development. -/
abbrev Repo := InMemoryEngineerRepository

namespace EngineerService

/-- `create_engineer`: build the domain entity with the sentinel id 0, empty
certification list, `is_available=True` and the current clock value, then
delegate to the repository. -/
def create_engineer (r : Repo) (engineer_data : EngineerCreate) (now : Nat) :
    Except DomainError Engineer × Repo :=
  r.create
    { id := 0
      name := engineer_data.name
      email := engineer_data.email
      specialty := engineer_data.specialty
      hourly_rate := engineer_data.hourly_rate
      certification_level := engineer_data.certification_level
      certifications := []
      is_available := true
      created_at := now }

/-- `get_engineer`: repository lookup, absence converted to
`EngineerNotFoundError`. -/
def get_engineer (r : Repo) (engineer_id : Nat) : Except DomainError Engineer :=
  match r.get_by_id engineer_id with
  | some engineer => .ok engineer
  | none => .error .engineerNotFound

/-- The field-level merge of `update_engineer`: each field present in the
update data overwrites the fetched record, unset fields are left untouched. -/
def applyUpdate (e : Engineer) (u : EngineerUpdate) : Engineer :=
  { e with
    name := u.name.getD e.name
    email := u.email.getD e.email
    specialty := u.specialty.getD e.specialty
    hourly_rate := u.hourly_rate.getD e.hourly_rate
    certification_level := u.certification_level.getD e.certification_level
    is_available := u.is_available.getD e.is_available }

/-- `update_engineer`: fetch (propagating not-found), merge the set fields,
store through `update`. -/
def update_engineer (r : Repo) (engineer_id : Nat) (update_data : EngineerUpdate) :
    Except DomainError Engineer × Repo :=
  match get_engineer r engineer_id with
  | .error err => (.error err, r)
  | .ok engineer => r.update (applyUpdate engineer update_data)

/-- `delete_engineer`: fetch first (so a missing id raises
`EngineerNotFoundError`), then delegate to the repository delete. -/
def delete_engineer (r : Repo) (engineer_id : Nat) :
    Except DomainError Bool × Repo :=
  match get_engineer r engineer_id with
  | .error err => (.error err, r)
  | .ok _ =>
    let res := r.delete engineer_id
    (.ok res.1, res.2)

/-- `add_certification`: fetch, idempotently add the code on the entity,
store through `update`. -/
def add_certification (r : Repo) (engineer_id : Nat) (cert_data : CertificationCreate) :
    Except DomainError Engineer × Repo :=
  match get_engineer r engineer_id with
  | .error err => (.error err, r)
  | .ok engineer => r.update (engineer.add_certification cert_data.cert_code)

/-- `find_engineers_for_platform`. -/
def find_engineers_for_platform (r : Repo) (platform : CloudPlatform) : List Engineer :=
  r.get_all.filter (fun e => e.is_available && e.can_work_on_platform platform)

/-- Per-level entry of the revenue report (`count`, `monthly_revenue`). -/
structure LevelStats where
  count : Nat
  monthly_revenue : ℚ
deriving DecidableEq

/-- The revenue report returned by `get_revenue_report`; the `by_certification_level`
dict is an ordered association list keyed by the level's `.value` string. -/
structure RevenueReport where
  total_available_engineers : Nat
  total_monthly_revenue_potential : ℚ
  by_certification_level : List (String × LevelStats)
deriving DecidableEq

/-- `get_revenue_report`: total monthly revenue over available records at
160 hours per month, and a per-level breakdown over every enum member. -/
def get_revenue_report (r : Repo) : RevenueReport :=
  let engineers := r.get_all
  let total_monthly :=
    ((engineers.filter (fun e => e.is_available)).map
      (fun e => e.calculate_monthly_revenue 160)).sum
  let by_level := CertificationLevel.all.map (fun level =>
    let level_engineers := engineers.filter
      (fun e => e.certification_level == level && e.is_available)
    (level.value,
      { count := level_engineers.length
        monthly_revenue :=
          (level_engineers.map (fun e => e.calculate_monthly_revenue 160)).sum }))
  { total_available_engineers := (engineers.filter (fun e => e.is_available)).length
    total_monthly_revenue_potential := total_monthly
    by_certification_level := by_level }

end EngineerService

/-- One state-changing call of the Service's public surface
(`create_engineer`, `update_engineer`, `delete_engineer`, `add_certification`;
the read-only operations do not touch the state). -/
inductive ServiceOp where
  | create (engineer_data : EngineerCreate) (now : Nat)
  | update (engineer_id : Nat) (update_data : EngineerUpdate)
  | delete (engineer_id : Nat)
  | addCert (engineer_id : Nat) (cert_data : CertificationCreate)
deriving DecidableEq

/-- State after executing one service call (a raised domain error leaves the
state as it was at the point of the raise). -/
def ServiceOp.run (op : ServiceOp) (r : Repo) : Repo :=
  match op with
  | .create d now => (EngineerService.create_engineer r d now).2
  | .update i u => (EngineerService.update_engineer r i u).2
  | .delete i => (EngineerService.delete_engineer r i).2
  | .addCert i c => (EngineerService.add_certification r i c).2

/-- State after a sequence of service calls. -/
def runOps (ops : List ServiceOp) (r : Repo) : Repo :=
  ops.foldl (fun s op => op.run s) r

/-! ## Generic lemmas about the dict model -/

/-- The pointwise replacement function applied by `dictSet` at an existing key. -/
def replAt (eng : Engineer) : Engineer → Engineer :=
  fun e => if e.id == eng.id then eng else e

lemma dictSet_eq_map (es : List Engineer) (eng : Engineer)
    (h : es.any (fun e => e.id == eng.id) = true) :
    dictSet es eng = es.map (replAt eng) := by
  simp [dictSet, h, replAt]

lemma dictSet_eq_append (es : List Engineer) (eng : Engineer)
    (h : es.any (fun e => e.id == eng.id) = false) :
    dictSet es eng = es ++ [eng] := by
  simp [dictSet, h]

lemma map_id_map_replAt (es : List Engineer) (eng : Engineer) :
    (es.map (replAt eng)).map Engineer.id = es.map Engineer.id := by
  rw [List.map_map]
  refine List.map_congr_left (fun e _ => ?_)
  by_cases h : e.id = eng.id
  · simp [replAt, h]
  · simp [replAt, h]

lemma map_email_map_replAt (es : List Engineer) (eng : Engineer)
    (h : ∀ e ∈ es, e.id = eng.id → e.email = eng.email) :
    (es.map (replAt eng)).map Engineer.email = es.map Engineer.email := by
  rw [List.map_map]
  refine List.map_congr_left (fun e he => ?_)
  by_cases hid : e.id = eng.id
  · simp [replAt, hid, h e he hid]
  · simp [replAt, hid]

lemma mem_map_replAt (es : List Engineer) (eng x : Engineer)
    (hx : x ∈ es.map (replAt eng)) : x = eng ∨ (x ∈ es ∧ x.id ≠ eng.id) := by
  obtain ⟨y, hy, rfl⟩ := List.mem_map.mp hx
  by_cases h : y.id = eng.id
  · exact Or.inl (by simp [replAt, h])
  · exact Or.inr (by simp [replAt, h, hy])

lemma map_replAt_eq_self (es : List Engineer) (eng : Engineer)
    (h : ∀ x ∈ es, x.id = eng.id → x = eng) :
    es.map (replAt eng) = es := by
  conv_rhs => rw [← List.map_id es]
  refine List.map_congr_left (fun x hx => ?_)
  by_cases hid : x.id = eng.id
  · simp [replAt, hid, (h x hx hid).symm]
  · simp [replAt, hid]

lemma find?_map_replAt_self (es : List Engineer) (eng : Engineer)
    (h : es.any (fun e => e.id == eng.id) = true) :
    (es.map (replAt eng)).find? (fun e => e.id == eng.id) = some eng := by
  induction es with
  | nil => simp at h
  | cons a t ih =>
    rw [List.map_cons]
    by_cases ha : a.id = eng.id
    · have hr : replAt eng a = eng := by simp [replAt, ha]
      rw [hr, List.find?_cons_of_pos _ (by simp)]
    · have hr : replAt eng a = a := by simp [replAt, ha]
      have ht : t.any (fun e => e.id == eng.id) = true := by
        simpa [List.any_cons, ha] using h
      rw [hr, List.find?_cons_of_neg _ (by simp [ha]), ih ht]

lemma find?_map_replAt_other (es : List Engineer) (eng : Engineer) (j : Nat)
    (h : j ≠ eng.id) :
    (es.map (replAt eng)).find? (fun e => e.id == j)
      = es.find? (fun e => e.id == j) := by
  induction es with
  | nil => rfl
  | cons a t ih =>
    rw [List.map_cons]
    by_cases ha : a.id = eng.id
    · have hr : replAt eng a = eng := by simp [replAt, ha]
      rw [hr, List.find?_cons_of_neg _ (by simp [Ne.symm h]),
        List.find?_cons_of_neg _ (by simp [ha, Ne.symm h]), ih]
    · have hr : replAt eng a = a := by simp [replAt, ha]
      by_cases haj : a.id = j
      · rw [hr, List.find?_cons_of_pos _ (by simp [haj]),
          List.find?_cons_of_pos _ (by simp [haj])]
      · rw [hr, List.find?_cons_of_neg _ (by simp [haj]),
          List.find?_cons_of_neg _ (by simp [haj]), ih]

/-! ## Inversion lemmas -/

lemma get_engineer_eq_ok {r : Repo} {i : Nat} {e : Engineer} :
    EngineerService.get_engineer r i = .ok e ↔ r.get_by_id i = some e := by
  unfold EngineerService.get_engineer
  cases h : r.get_by_id i <;> simp

lemma get_by_id_some {r : Repo} {i : Nat} {e : Engineer}
    (h : r.get_by_id i = some e) : e ∈ r.engineers ∧ e.id = i := by
  refine ⟨List.mem_of_find?_eq_some h, ?_⟩
  simpa using List.find?_some h

lemma any_id_eq_isSome (es : List Engineer) (i : Nat) :
    es.any (fun e => e.id == i) = (es.find? (fun e => e.id == i)).isSome := by
  rw [Bool.eq_iff_iff]
  simp [List.any_eq_true, List.find?_isSome]

/-! ## The reachability invariant: unique ids, ids below the counter,
duplicate-free certification lists -/

def InMemoryEngineerRepository.Inv (r : Repo) : Prop :=
  (r.engineers.map Engineer.id).Nodup ∧
  (∀ e ∈ r.engineers, e.id < r.next_id) ∧
  (∀ e ∈ r.engineers, e.certifications.Nodup)

lemma inv_empty : InMemoryEngineerRepository.empty.Inv := by
  simp [InMemoryEngineerRepository.Inv, InMemoryEngineerRepository.empty]

lemma any_id_false_of_lt (es : List Engineer) (n k : Nat)
    (hb : ∀ e ∈ es, e.id < n) (hk : n ≤ k) :
    es.any (fun e => e.id == k) = false := by
  simp only [List.any_eq_false]
  intro e he
  have := hb e he
  simp only [beq_iff_eq]
  omega

lemma add_certification_nodup {e : Engineer} (h : e.certifications.Nodup) (c : String) :
    (e.add_certification c).certifications.Nodup := by
  unfold Engineer.add_certification
  by_cases hc : c ∈ e.certifications
  · simpa [hc] using h
  · simp [hc, List.nodup_append, h]

/-! ## Branch characterizations of the repository operations -/

lemma create_of_absent (r : Repo) (eng : Engineer)
    (hge : r.get_by_email eng.email = none) :
    r.create eng = (.ok { eng with id := r.next_id },
      { engineers := dictSet r.engineers { eng with id := r.next_id }
        next_id := r.next_id + 1 }) := by
  unfold InMemoryEngineerRepository.create
  rw [hge]

lemma create_of_present (r : Repo) (eng v : Engineer)
    (hge : r.get_by_email eng.email = some v) :
    r.create eng = (.error .engineerAlreadyExists, r) := by
  unfold InMemoryEngineerRepository.create
  rw [hge]

lemma update_of_present (r : Repo) (eng : Engineer)
    (h : r.engineers.any (fun e => e.id == eng.id) = true) :
    r.update eng = (.ok eng, { r with engineers := dictSet r.engineers eng }) := by
  unfold InMemoryEngineerRepository.update
  rw [if_pos h]

lemma update_of_absent (r : Repo) (eng : Engineer)
    (h : r.engineers.any (fun e => e.id == eng.id) = false) :
    r.update eng = (.error .engineerNotFound, r) := by
  unfold InMemoryEngineerRepository.update
  rw [if_neg (by simp [h])]

lemma delete_of_present (r : Repo) (i : Nat)
    (h : r.engineers.any (fun e => e.id == i) = true) :
    r.delete i = (true, { r with engineers := dictDelete r.engineers i }) := by
  unfold InMemoryEngineerRepository.delete
  rw [if_pos h]

lemma delete_of_absent (r : Repo) (i : Nat)
    (h : r.engineers.any (fun e => e.id == i) = false) :
    r.delete i = (false, r) := by
  unfold InMemoryEngineerRepository.delete
  rw [if_neg (by simp [h])]

/-! ## Invariant preservation at the repository level -/

lemma create_inv (r : Repo) (eng : Engineer) (h : r.Inv)
    (hc : eng.certifications.Nodup) : ((r.create eng).2).Inv := by
  obtain ⟨hids, hb, hcerts⟩ := h
  cases hge : r.get_by_email eng.email with
  | some v => rw [create_of_present r eng v hge]; exact ⟨hids, hb, hcerts⟩
  | none =>
    rw [create_of_absent r eng hge]
    have hany : r.engineers.any (fun e => e.id == r.next_id) = false :=
      any_id_false_of_lt _ _ _ hb le_rfl
    have hset : dictSet r.engineers { eng with id := r.next_id }
        = r.engineers ++ [{ eng with id := r.next_id }] :=
      dictSet_eq_append _ _ hany
    refine ⟨?_, ?_, ?_⟩
    · simp only [hset, List.map_append, List.map_cons, List.map_nil]
      rw [List.nodup_append]
      refine ⟨hids, by simp, ?_⟩
      intro x hx
      simp only [List.mem_singleton]
      obtain ⟨e, he, rfl⟩ := List.mem_map.mp hx
      have := hb e he
      omega
    · simp only [hset]
      intro e he
      rcases List.mem_append.mp he with h1 | h1
      · have := hb e h1; omega
      · simp only [List.mem_singleton] at h1
        subst h1
        simp
    · simp only [hset]
      intro e he
      rcases List.mem_append.mp he with h1 | h1
      · exact hcerts e h1
      · simp only [List.mem_singleton] at h1
        subst h1
        exact hc

lemma update_inv (r : Repo) (eng : Engineer) (h : r.Inv)
    (hc : eng.certifications.Nodup) : ((r.update eng).2).Inv := by
  obtain ⟨hids, hb, hcerts⟩ := h
  by_cases hany : r.engineers.any (fun e => e.id == eng.id) = true
  · rw [update_of_present r eng hany]
    have hidlt : eng.id < r.next_id := by
      obtain ⟨e, he, hpe⟩ := List.any_eq_true.mp hany
      have he' : e.id = eng.id := by simpa using hpe
      have := hb e he
      omega
    have hset : dictSet r.engineers eng = r.engineers.map (replAt eng) :=
      dictSet_eq_map _ _ hany
    refine ⟨?_, ?_, ?_⟩
    · simp only [hset]
      rw [map_id_map_replAt]
      exact hids
    · simp only [hset]
      intro x hx
      rcases mem_map_replAt _ _ _ hx with rfl | ⟨hmem, _⟩
      · exact hidlt
      · exact hb x hmem
    · simp only [hset]
      intro x hx
      rcases mem_map_replAt _ _ _ hx with rfl | ⟨hmem, _⟩
      · exact hc
      · exact hcerts x hmem
  · rw [update_of_absent r eng (by simpa using hany)]
    exact ⟨hids, hb, hcerts⟩

lemma delete_inv (r : Repo) (i : Nat) (h : r.Inv) : ((r.delete i).2).Inv := by
  obtain ⟨hids, hb, hcerts⟩ := h
  by_cases hany : r.engineers.any (fun e => e.id == i) = true
  · rw [delete_of_present r i hany]
    have hsub : List.Sublist (dictDelete r.engineers i) r.engineers :=
      List.filter_sublist _
    refine ⟨?_, ?_, ?_⟩
    · exact List.Nodup.sublist (hsub.map Engineer.id) hids
    · intro e he; exact hb e (List.Sublist.mem he hsub)
    · intro e he; exact hcerts e (List.Sublist.mem he hsub)
  · rw [delete_of_absent r i (by simpa using hany)]
    exact ⟨hids, hb, hcerts⟩

/-! ## Invariant preservation at the service level -/

lemma create_engineer_inv (r : Repo) (d : EngineerCreate) (now : Nat) (h : r.Inv) :
    ((EngineerService.create_engineer r d now).2).Inv :=
  create_inv r _ h (by simp)

lemma update_engineer_inv (r : Repo) (i : Nat) (u : EngineerUpdate) (h : r.Inv) :
    ((EngineerService.update_engineer r i u).2).Inv := by
  unfold EngineerService.update_engineer
  cases hge : EngineerService.get_engineer r i with
  | error err => exact h
  | ok e =>
    have hmem := (get_by_id_some (get_engineer_eq_ok.mp hge)).1
    exact update_inv r _ h (h.2.2 e hmem)

lemma delete_engineer_inv (r : Repo) (i : Nat) (h : r.Inv) :
    ((EngineerService.delete_engineer r i).2).Inv := by
  unfold EngineerService.delete_engineer
  cases hge : EngineerService.get_engineer r i with
  | error err => exact h
  | ok e => exact delete_inv r i h

lemma add_certification_inv (r : Repo) (i : Nat) (c : CertificationCreate) (h : r.Inv) :
    ((EngineerService.add_certification r i c).2).Inv := by
  unfold EngineerService.add_certification
  cases hge : EngineerService.get_engineer r i with
  | error err => exact h
  | ok e =>
    have hmem := (get_by_id_some (get_engineer_eq_ok.mp hge)).1
    exact update_inv r _ h (add_certification_nodup (h.2.2 e hmem) _)

lemma run_inv (op : ServiceOp) (r : Repo) (h : r.Inv) : (op.run r).Inv := by
  cases op with
  | create d now => exact create_engineer_inv r d now h
  | update i u => exact update_engineer_inv r i u h
  | delete i => exact delete_engineer_inv r i h
  | addCert i c => exact add_certification_inv r i c h

lemma runOps_cons (op : ServiceOp) (ops : List ServiceOp) (r : Repo) :
    runOps (op :: ops) r = runOps ops (op.run r) := by
  simp [runOps]

lemma runOps_inv (ops : List ServiceOp) (r : Repo) (h : r.Inv) : (runOps ops r).Inv := by
  induction ops generalizing r with
  | nil => simpa [runOps] using h
  | cons op t ih =>
    rw [runOps_cons]
    exact ih _ (run_inv op r h)

/-! ## Monotonicity of the id counter -/

lemma create_next_id_le (r : Repo) (eng : Engineer) :
    r.next_id ≤ ((r.create eng).2).next_id := by
  cases hge : r.get_by_email eng.email with
  | some v => rw [create_of_present r eng v hge]
  | none => rw [create_of_absent r eng hge]; simp

lemma update_next_id (r : Repo) (eng : Engineer) :
    ((r.update eng).2).next_id = r.next_id := by
  by_cases hany : r.engineers.any (fun e => e.id == eng.id) = true
  · rw [update_of_present r eng hany]
  · rw [update_of_absent r eng (by simpa using hany)]

lemma delete_next_id (r : Repo) (i : Nat) :
    ((r.delete i).2).next_id = r.next_id := by
  by_cases hany : r.engineers.any (fun e => e.id == i) = true
  · rw [delete_of_present r i hany]
  · rw [delete_of_absent r i (by simpa using hany)]

lemma next_id_le_run (op : ServiceOp) (r : Repo) : r.next_id ≤ (op.run r).next_id := by
  cases op with
  | create d now => exact create_next_id_le r _
  | update i u =>
    show r.next_id ≤ (EngineerService.update_engineer r i u).2.next_id
    unfold EngineerService.update_engineer
    cases hge : EngineerService.get_engineer r i with
    | error err => exact le_rfl
    | ok e => exact le_of_eq (update_next_id r _).symm
  | delete i =>
    show r.next_id ≤ (EngineerService.delete_engineer r i).2.next_id
    unfold EngineerService.delete_engineer
    cases hge : EngineerService.get_engineer r i with
    | error err => exact le_rfl
    | ok e => exact le_of_eq (delete_next_id r i).symm
  | addCert i c =>
    show r.next_id ≤ (EngineerService.add_certification r i c).2.next_id
    unfold EngineerService.add_certification
    cases hge : EngineerService.get_engineer r i with
    | error err => exact le_rfl
    | ok e => exact le_of_eq (update_next_id r _).symm

lemma next_id_le_runOps (ops : List ServiceOp) (r : Repo) :
    r.next_id ≤ (runOps ops r).next_id := by
  induction ops generalizing r with
  | nil => simp [runOps]
  | cons op t ih =>
    rw [runOps_cons]
    exact le_trans (next_id_le_run op r) (ih _)

/-! ## Email uniqueness -/

/-- "At most one stored record has any given email." -/
def atMostOnePerEmail (r : Repo) : Prop :=
  ∀ em, (r.engineers.filter (fun e => e.email == em)).length ≤ 1

/-- Pairwise-distinct stored emails. -/
def emailsNodup (r : Repo) : Prop := (r.engineers.map Engineer.email).Nodup

lemma atMostOnePerEmail_of_emailsNodup {r : Repo} (h : emailsNodup r) :
    atMostOnePerEmail r := by
  intro em
  have h1 := List.nodup_iff_count_le_one.mp h em
  rw [List.count, List.countP_map] at h1
  rw [← List.countP_eq_length_filter]
  simpa using h1

/-- Service calls that do not set the email field of an update. -/
def ServiceOp.keeps_email : ServiceOp → Bool
  | .update _ u => u.email.isNone
  | _ => true

lemma create_emailsNodup (r : Repo) (eng : Engineer) (hInv : r.Inv)
    (h : emailsNodup r) : emailsNodup ((r.create eng).2) := by
  cases hge : r.get_by_email eng.email with
  | some v => rw [create_of_present r eng v hge]; exact h
  | none =>
    rw [create_of_absent r eng hge]
    have hany := any_id_false_of_lt _ _ r.next_id hInv.2.1 le_rfl
    have hset : dictSet r.engineers { eng with id := r.next_id }
        = r.engineers ++ [{ eng with id := r.next_id }] :=
      dictSet_eq_append _ _ hany
    unfold emailsNodup at h ⊢
    simp only [hset, List.map_append, List.map_cons, List.map_nil]
    rw [List.nodup_append]
    refine ⟨h, by simp, ?_⟩
    intro x hx
    simp only [List.mem_singleton]
    obtain ⟨e, he, rfl⟩ := List.mem_map.mp hx
    have := List.find?_eq_none.mp hge e he
    simpa using this

lemma update_emailsNodup (r : Repo) (eng e0 : Engineer) (hInv : r.Inv)
    (h : emailsNodup r) (hget : r.get_by_id eng.id = some e0)
    (hem : eng.email = e0.email) :
    emailsNodup ((r.update eng).2) := by
  have hany : r.engineers.any (fun e => e.id == eng.id) = true := by
    rw [any_id_eq_isSome]
    rw [show r.engineers.find? (fun e => e.id == eng.id) = some e0 from hget]
    rfl
  rw [update_of_present r eng hany]
  obtain ⟨hmem0, hid0⟩ := get_by_id_some hget
  unfold emailsNodup at h ⊢
  simp only [dictSet_eq_map _ _ hany]
  rw [map_email_map_replAt]
  · exact h
  · intro x hx hxid
    have hx0 : x = e0 :=
      List.inj_on_of_nodup_map hInv.1 hx hmem0 (by rw [hxid, hid0])
    rw [hx0, hem]

lemma delete_emailsNodup (r : Repo) (i : Nat) (h : emailsNodup r) :
    emailsNodup ((r.delete i).2) := by
  by_cases hany : r.engineers.any (fun e => e.id == i) = true
  · rw [delete_of_present r i hany]
    unfold emailsNodup at h ⊢
    exact List.Nodup.sublist ((List.filter_sublist _).map Engineer.email) h
  · rw [delete_of_absent r i (by simpa using hany)]
    exact h

lemma emailsNodup_run (op : ServiceOp) (r : Repo) (hop : op.keeps_email = true)
    (hInv : r.Inv) (h : emailsNodup r) : emailsNodup (op.run r) := by
  cases op with
  | create d now => exact create_emailsNodup r _ hInv h
  | update i u =>
    show emailsNodup (EngineerService.update_engineer r i u).2
    unfold EngineerService.update_engineer
    cases hge : EngineerService.get_engineer r i with
    | error err => exact h
    | ok e =>
      have hgb := get_engineer_eq_ok.mp hge
      have hid := (get_by_id_some hgb).2
      have hnone : u.email = none := by
        simpa [ServiceOp.keeps_email, Option.isNone_iff_eq_none] using hop
      refine update_emailsNodup r _ e hInv h ?_ ?_
      · show r.get_by_id (EngineerService.applyUpdate e u).id = some e
        have : (EngineerService.applyUpdate e u).id = i := by
          simp [EngineerService.applyUpdate, hid]
        rw [this]
        exact hgb
      · simp [EngineerService.applyUpdate, hnone]
  | delete i =>
    show emailsNodup (EngineerService.delete_engineer r i).2
    unfold EngineerService.delete_engineer
    cases hge : EngineerService.get_engineer r i with
    | error err => exact h
    | ok e => exact delete_emailsNodup r i h
  | addCert i c =>
    show emailsNodup (EngineerService.add_certification r i c).2
    unfold EngineerService.add_certification
    cases hge : EngineerService.get_engineer r i with
    | error err => exact h
    | ok e =>
      have hgb := get_engineer_eq_ok.mp hge
      have hid := (get_by_id_some hgb).2
      refine update_emailsNodup r _ e hInv h ?_ ?_
      · show r.get_by_id (e.add_certification c.cert_code).id = some e
        have : (e.add_certification c.cert_code).id = i := by
          unfold Engineer.add_certification
          by_cases hc : c.cert_code ∈ e.certifications <;> simp [hc, hid]
        rw [this]
        exact hgb
      · unfold Engineer.add_certification
        by_cases hc : c.cert_code ∈ e.certifications <;> simp [hc]

lemma emailsNodup_runOps (ops : List ServiceOp) (r : Repo)
    (hops : ∀ op ∈ ops, op.keeps_email = true) (hInv : r.Inv) (h : emailsNodup r) :
    emailsNodup (runOps ops r) := by
  induction ops generalizing r with
  | nil => simpa [runOps] using h
  | cons op t ih =>
    rw [runOps_cons]
    exact ih _ (fun o ho => hops o (List.mem_cons_of_mem _ ho))
      (run_inv op r hInv)
      (emailsNodup_run op r (hops op (List.mem_cons_self _ _)) hInv h)

/-! ## Sequential creates -/

/-- Folding repository-level creates, keeping states. -/
def runRepoCreates (engs : List Engineer) (r : Repo) : Repo :=
  engs.foldl (fun s eng => (s.create eng).2) r

lemma runRepoCreates_cons (d : Engineer) (t : List Engineer) (r : Repo) :
    runRepoCreates (d :: t) r = runRepoCreates t ((r.create d).2) := by
  simp [runRepoCreates]

lemma create_ok_id (r : Repo) (eng res : Engineer)
    (h : (r.create eng).1 = .ok res) : res.id = r.next_id := by
  cases hge : r.get_by_email eng.email with
  | some v =>
    rw [create_of_present r eng v hge] at h
    simp at h
  | none =>
    rw [create_of_absent r eng hge] at h
    simp only at h
    injection h with h
    rw [← h]

lemma get_by_id_delete (r : Repo) (i : Nat) :
    ((r.delete i).2).get_by_id i = none := by
  by_cases hany : r.engineers.any (fun e => e.id == i) = true
  · rw [delete_of_present r i hany]
    unfold InMemoryEngineerRepository.get_by_id
    rw [List.find?_eq_none]
    intro x hx
    have := (List.mem_filter.mp hx).2
    simpa using this
  · rw [delete_of_absent r i (by simpa using hany)]
    unfold InMemoryEngineerRepository.get_by_id
    rw [List.find?_eq_none]
    intro x hx
    have h2 : ∀ x ∈ r.engineers, ¬ x.id = i := by simpa using hany
    simpa using h2 x hx

lemma runRepoCreates_ids (engs : List Engineer) (r : Repo)
    (hids : r.engineers.map Engineer.id = List.range' 1 r.engineers.length)
    (hnext : r.next_id = r.engineers.length + 1)
    (hnodup : (engs.map Engineer.email).Nodup)
    (hdisj : ∀ e ∈ r.engineers, ∀ d ∈ engs, e.email ≠ d.email) :
    (runRepoCreates engs r).engineers.map Engineer.id
      = List.range' 1 (r.engineers.length + engs.length) := by
  induction engs generalizing r with
  | nil => simpa [runRepoCreates] using hids
  | cons d t ih =>
    have hge : r.get_by_email d.email = none := by
      unfold InMemoryEngineerRepository.get_by_email
      rw [List.find?_eq_none]
      intro e he
      simpa using hdisj e he d (List.mem_cons_self _ _)
    have hb : ∀ e ∈ r.engineers, e.id < r.next_id := by
      intro e he
      have hm : e.id ∈ r.engineers.map Engineer.id := List.mem_map_of_mem _ he
      rw [hids] at hm
      have := List.mem_range'.mp hm
      omega
    have hany := any_id_false_of_lt _ _ r.next_id hb le_rfl
    have hset : dictSet r.engineers { d with id := r.next_id }
        = r.engineers ++ [{ d with id := r.next_id }] :=
      dictSet_eq_append _ _ hany
    have hcons : (d.email :: t.map Engineer.email).Nodup := by simpa using hnodup
    have h1 : (r.engineers ++ [{ d with id := r.next_id }]).map Engineer.id
        = List.range' 1 (r.engineers ++ [{ d with id := r.next_id }]).length := by
      simp only [List.map_append, List.map_cons, List.map_nil, List.length_append,
        List.length_cons, List.length_nil]
      rw [hids, hnext]
      rw [show r.engineers.length + (0 + 1) = r.engineers.length + 1 by omega]
      rw [List.range'_concat]
      simp [Nat.add_comm]
    have h2 : r.next_id + 1 = (r.engineers ++ [{ d with id := r.next_id }]).length + 1 := by
      simp [hnext]
    have h3 : (t.map Engineer.email).Nodup := (List.nodup_cons.mp hcons).2
    have h4 : ∀ e ∈ r.engineers ++ [{ d with id := r.next_id }],
        ∀ x ∈ t, e.email ≠ x.email := by
      intro e he x hx
      rcases List.mem_append.mp he with hmem | hmem
      · exact hdisj e hmem x (List.mem_cons_of_mem _ hx)
      · simp only [List.mem_singleton] at hmem
        subst hmem
        simp only
        intro hcontra
        exact (List.nodup_cons.mp hcons).1
          (hcontra ▸ List.mem_map_of_mem Engineer.email hx)
    have hres := ih { engineers := r.engineers ++ [{ d with id := r.next_id }]
                      next_id := r.next_id + 1 } h1 h2 h3 h4
    rw [runRepoCreates_cons, create_of_absent r d hge]
    simp only [hset]
    simp only [List.length_append, List.length_cons, List.length_nil] at hres ⊢
    rw [show r.engineers.length + (t.length + 1)
        = (r.engineers.length + (0 + 1)) + t.length by omega]
    exact hres

/-! ## Small facts about `add_certification` -/

lemma add_certification_id (e : Engineer) (c : String) :
    (e.add_certification c).id = e.id := by
  unfold Engineer.add_certification
  by_cases hc : c ∈ e.certifications <;> simp [hc]

lemma add_certification_email (e : Engineer) (c : String) :
    (e.add_certification c).email = e.email := by
  unfold Engineer.add_certification
  by_cases hc : c ∈ e.certifications <;> simp [hc]

lemma mem_add_certification (e : Engineer) (c : String) :
    c ∈ (e.add_certification c).certifications := by
  unfold Engineer.add_certification
  by_cases hc : c ∈ e.certifications <;> simp [hc]

lemma add_certification_of_mem (e : Engineer) (c : String)
    (hc : c ∈ e.certifications) : e.add_certification c = e := by
  unfold Engineer.add_certification
  simp [hc]

/-! ## Shared concrete sample data for witnesses and counterexamples -/

def sampleCreateA : EngineerCreate :=
  { name := "Alice", email := "alice@x", specialty := "cloud",
    hourly_rate := 100, certification_level := .mid }

def sampleCreateB : EngineerCreate :=
  { name := "Bob", email := "bob@x", specialty := "cloud",
    hourly_rate := 120, certification_level := .expert }

def wEng1 : Engineer :=
  { id := 1, name := "Alice", email := "alice@x", specialty := "cloud",
    hourly_rate := 100, certification_level := .mid, certifications := [],
    is_available := true, created_at := 0 }

def wRepo1 : Repo := { engineers := [wEng1], next_id := 2 }

def wEngDup : Engineer :=
  { id := 0, name := "Mallory", email := "alice@x", specialty := "cloud",
    hourly_rate := 90, certification_level := .junior, certifications := [],
    is_available := true, created_at := 0 }

def wEng1B : Engineer := { wEng1 with name := "Bob" }

/-! ## Claim theorems -/

/-- C2: for any store state containing a record with email `e`, a create of a
second record with the same email fails with the duplicate-key error
(`EngineerAlreadyExistsError`), and the returned state is exactly the input
state: the record collection and the id counter are untouched, so no partial
record remains and the next successful create is assigned the same id it
would have been assigned without the failed attempt. -/
theorem C2_duplicate_create_rejected_state_unchanged (r : Repo) (eng e0 : Engineer)
    (hmem : e0 ∈ r.engineers) (hem : eng.email = e0.email) :
    r.create eng = (.error .engineerAlreadyExists, r) := by
  have hsome : (r.engineers.find? (fun e => e.email == eng.email)).isSome := by
    rw [List.find?_isSome]
    exact ⟨e0, hmem, by simp [hem]⟩
  obtain ⟨v, hv⟩ := Option.isSome_iff_exists.mp hsome
  exact create_of_present r eng v hv

/-- Witness for C2 at a concrete one-record store. -/
theorem C2_witness :
    wEng1 ∈ wRepo1.engineers ∧ wEngDup.email = wEng1.email ∧
    wRepo1.create wEngDup = (.error .engineerAlreadyExists, wRepo1) :=
  ⟨by decide, by decide,
   C2_duplicate_create_rejected_state_unchanged wRepo1 wEngDup wEng1
     (by decide) (by decide)⟩

/-- C6: deleting a missing id through the service fails with
`EngineerNotFoundError` (never a silent `false`) and leaves the state
unchanged; deleting a present id succeeds with `true` and removes the record;
and the store-level `delete` is total (it returns, rather than raises, a
boolean) and that boolean is `true` exactly when a record with the id was
present, i.e. exactly when a removal occurred. -/
theorem C6_delete_error_translation (r : Repo) (i : Nat) :
    (r.get_by_id i = none →
      EngineerService.delete_engineer r i = (.error .engineerNotFound, r))
    ∧ (∀ e, r.get_by_id i = some e →
      (EngineerService.delete_engineer r i).1 = .ok true
      ∧ ((EngineerService.delete_engineer r i).2).get_by_id i = none)
    ∧ ((r.delete i).1 = true ↔ (r.get_by_id i).isSome = true) := by
  refine ⟨?_, ?_, ?_⟩
  · intro hnone
    have herr : EngineerService.get_engineer r i = .error .engineerNotFound := by
      unfold EngineerService.get_engineer
      rw [hnone]
    unfold EngineerService.delete_engineer
    rw [herr]
  · intro e hsome
    have hok : EngineerService.get_engineer r i = .ok e := get_engineer_eq_ok.mpr hsome
    have hany : r.engineers.any (fun x => x.id == i) = true := by
      rw [any_id_eq_isSome]
      rw [show r.engineers.find? (fun x => x.id == i) = some e from hsome]
      rfl
    have hdel := delete_of_present r i hany
    have heq : EngineerService.delete_engineer r i
        = (.ok true, { r with engineers := dictDelete r.engineers i }) := by
      unfold EngineerService.delete_engineer
      rw [hok, hdel]
    refine ⟨by rw [heq], ?_⟩
    have habs := get_by_id_delete r i
    rw [hdel] at habs
    rw [heq]
    exact habs
  · have h31 : (r.delete i).1 = r.engineers.any (fun e => e.id == i) := by
      by_cases hany : r.engineers.any (fun e => e.id == i) = true
      · rw [delete_of_present r i hany, hany]
      · rw [delete_of_absent r i (by simpa using hany)]
        exact (Bool.eq_false_iff.mpr hany).symm
    rw [h31, any_id_eq_isSome]
    exact Iff.rfl

/-- Witness for C6: a missing id (2) raises, a present id (1) deletes, and
the store-level boolean reports presence. -/
theorem C6_witness :
    (EngineerService.delete_engineer wRepo1 2 = (.error .engineerNotFound, wRepo1))
    ∧ ((EngineerService.delete_engineer wRepo1 1).1 = .ok true)
    ∧ ((wRepo1.delete 1).1 = true ↔ (wRepo1.get_by_id 1).isSome = true) :=
  ⟨(C6_delete_error_translation wRepo1 2).1 (by decide),
   ((C6_delete_error_translation wRepo1 1).2.1 wEng1 (by decide)).1,
   (C6_delete_error_translation wRepo1 1).2.2⟩

/-- C9 counterexample: the claim "update leaves the Store's state unchanged"
is false: updating the record stored under id 1 with a record carrying a
different name changes the stored collection. -/
theorem C9_counterexample_update_mutates :
    (wRepo1.update wEng1B).2 ≠ wRepo1 := by decide

/-- C9 (amended): `create` and `delete` mutate the stored collection and (for
create) the id counter; `get_by_id`, `get_by_email`, `get_all` and
`find_available` are read-only (they are functions of the state returning no
new state); `update` also mutates the stored collection, but only the entry
at the given record's id: the counter is untouched, every other id reads the
same afterwards, and a failed update leaves the state entirely unchanged. -/
theorem C9_update_frame (r : Repo) (eng : Engineer) :
    ((r.update eng).2).next_id = r.next_id
    ∧ (∀ j, j ≠ eng.id → ((r.update eng).2).get_by_id j = r.get_by_id j)
    ∧ (∀ err, (r.update eng).1 = .error err → (r.update eng).2 = r) := by
  refine ⟨update_next_id r eng, ?_, ?_⟩
  · intro j hj
    by_cases hany : r.engineers.any (fun e => e.id == eng.id) = true
    · rw [update_of_present r eng hany]
      unfold InMemoryEngineerRepository.get_by_id
      simp only
      rw [dictSet_eq_map _ _ hany]
      exact find?_map_replAt_other _ _ _ hj
    · rw [update_of_absent r eng (by simpa using hany)]
  · intro err herr
    by_cases hany : r.engineers.any (fun e => e.id == eng.id) = true
    · rw [update_of_present r eng hany] at herr
      simp at herr
    · rw [update_of_absent r eng (by simpa using hany)]

/-- Witness for C9: the counter is unchanged, a different id (5) reads the
same, and a failed update (empty store) leaves the state unchanged. -/
theorem C9_witness :
    ((wRepo1.update wEng1B).2).next_id = wRepo1.next_id
    ∧ ((wRepo1.update wEng1B).2).get_by_id 5 = wRepo1.get_by_id 5
    ∧ (InMemoryEngineerRepository.empty.update wEng1B).2
        = InMemoryEngineerRepository.empty :=
  ⟨(C9_update_frame wRepo1 wEng1B).1,
   (C9_update_frame wRepo1 wEng1B).2.1 5 (by decide),
   (C9_update_frame InMemoryEngineerRepository.empty wEng1B).2.2
     .engineerNotFound (by rfl)⟩

/-- C1 counterexample: the email-uniqueness invariant does NOT hold over all
sequences of the Service's public operations: after two creates with distinct
emails, `update_engineer` on the second record with an update that sets the
email to the first record's email produces a state with two stored records
sharing one email (the repository's `update` performs no email check). -/
theorem C1_counterexample_update_breaks_email_uniqueness :
    ¬ atMostOnePerEmail (runOps
      [.create sampleCreateA 0,
       .create sampleCreateB 0,
       .update 2 { name := none, email := some "alice@x", specialty := none,
                   hourly_rate := none, certification_level := none,
                   is_available := none }]
      InMemoryEngineerRepository.empty) :=
  fun h => absurd (h "alice@x") (by decide)

/-- C1 (amended): email uniqueness is an invariant of every state reachable
from the empty store through `create_engineer`, `delete_engineer`,
`add_certification`, and those `update_engineer` calls whose update data does
not set the email field; at most one stored record has any given email.
(An `update_engineer` call that sets the email can violate it, as the
counterexample shows.) -/
theorem C1_email_unique_under_email_preserving_ops (ops : List ServiceOp)
    (hops : ∀ op ∈ ops, op.keeps_email = true) :
    atMostOnePerEmail (runOps ops InMemoryEngineerRepository.empty) :=
  atMostOnePerEmail_of_emailsNodup
    (emailsNodup_runOps ops _ hops inv_empty
      (by simp [emailsNodup, InMemoryEngineerRepository.empty]))

/-- Witness for the amended C1 on a concrete sequence of creates, a rate-only
update, a certification add and a delete. -/
theorem C1_witness :
    (∀ op ∈ ([.create sampleCreateA 0,
              .create sampleCreateB 1,
              .update 1 { name := none, email := none, specialty := none,
                          hourly_rate := some 150, certification_level := none,
                          is_available := none },
              .addCert 2 { cert_code := "AZ-104", platform := .azure },
              .delete 1] : List ServiceOp), op.keeps_email = true)
    ∧ atMostOnePerEmail (runOps
        [.create sampleCreateA 0,
         .create sampleCreateB 1,
         .update 1 { name := none, email := none, specialty := none,
                     hourly_rate := some 150, certification_level := none,
                     is_available := none },
         .addCert 2 { cert_code := "AZ-104", platform := .azure },
         .delete 1]
        InMemoryEngineerRepository.empty) :=
  ⟨by decide,
   C1_email_unique_under_email_preserving_ops _ (by decide)⟩

/-- C3: starting from an empty store, after any sequence of creates with
pairwise-distinct emails (all of which then succeed), whatever ids the
callers supplied in the submitted records, `get_all` returns exactly N
records whose ids are `1, 2, ..., N` in assignment (= insertion) order. -/
theorem C3_creates_assign_sequential_ids (engs : List Engineer)
    (hnodup : (engs.map Engineer.email).Nodup) :
    ((runRepoCreates engs InMemoryEngineerRepository.empty).get_all).map Engineer.id
      = List.range' 1 engs.length
    ∧ ((runRepoCreates engs InMemoryEngineerRepository.empty).get_all).length
      = engs.length := by
  have h := runRepoCreates_ids engs InMemoryEngineerRepository.empty
    (by simp [InMemoryEngineerRepository.empty])
    (by simp [InMemoryEngineerRepository.empty])
    hnodup
    (by simp [InMemoryEngineerRepository.empty])
  simp only [InMemoryEngineerRepository.empty, List.length_nil, Nat.zero_add] at h
  refine ⟨h, ?_⟩
  have h2 := congrArg List.length h
  simpa [InMemoryEngineerRepository.get_all] using h2

/-- Caller-supplied record with an arbitrary id (57). -/
def wEngP : Engineer := { wEng1 with id := 57 }

/-- Caller-supplied record with a distinct email and id 0. -/
def wEngQ : Engineer := { wEng1 with id := 0, email := "bob@x", name := "Bob" }

/-- Witness for C3: two creates with caller-supplied ids 57 and 0 still get
ids 1 and 2. -/
theorem C3_witness :
    (([wEngP, wEngQ].map Engineer.email).Nodup)
    ∧ ((runRepoCreates [wEngP, wEngQ] InMemoryEngineerRepository.empty).get_all).map
        Engineer.id = List.range' 1 2 :=
  ⟨by decide, (C3_creates_assign_sequential_ids [wEngP, wEngQ] (by decide)).1⟩

/-- C4: for every present id and every partial update, `update_engineer`
succeeds and the stored record afterwards is exactly the old record with each
SET field overwritten by the supplied value and every UNSET field — as well
as `id`, `certifications` and `created_at`, which `EngineerUpdate` cannot
carry at all — retaining its prior value. -/
theorem C4_update_is_field_merge (r : Repo) (i : Nat)
    (u : EngineerUpdate) (e : Engineer) (hget : r.get_by_id i = some e) :
    (EngineerService.update_engineer r i u).1
        = .ok (EngineerService.applyUpdate e u)
    ∧ ((EngineerService.update_engineer r i u).2).get_by_id i
        = some (EngineerService.applyUpdate e u)
    ∧ (EngineerService.applyUpdate e u).name = u.name.getD e.name
    ∧ (EngineerService.applyUpdate e u).email = u.email.getD e.email
    ∧ (EngineerService.applyUpdate e u).specialty = u.specialty.getD e.specialty
    ∧ (EngineerService.applyUpdate e u).hourly_rate = u.hourly_rate.getD e.hourly_rate
    ∧ (EngineerService.applyUpdate e u).certification_level
        = u.certification_level.getD e.certification_level
    ∧ (EngineerService.applyUpdate e u).is_available = u.is_available.getD e.is_available
    ∧ (EngineerService.applyUpdate e u).id = e.id
    ∧ (EngineerService.applyUpdate e u).certifications = e.certifications
    ∧ (EngineerService.applyUpdate e u).created_at = e.created_at := by
  have hok : EngineerService.get_engineer r i = .ok e := get_engineer_eq_ok.mpr hget
  have hid : (EngineerService.applyUpdate e u).id = i := by
    simp [EngineerService.applyUpdate, (get_by_id_some hget).2]
  have hany : r.engineers.any
      (fun x => x.id == (EngineerService.applyUpdate e u).id) = true := by
    rw [hid, any_id_eq_isSome]
    rw [show r.engineers.find? (fun x => x.id == i) = some e from hget]
    rfl
  have hupd : EngineerService.update_engineer r i u
      = (.ok (EngineerService.applyUpdate e u),
         { r with engineers := dictSet r.engineers (EngineerService.applyUpdate e u) }) := by
    unfold EngineerService.update_engineer
    rw [hok]
    exact update_of_present r _ hany
  refine ⟨by rw [hupd], ?_, rfl, rfl, rfl, rfl, rfl, rfl, rfl, rfl, rfl⟩
  rw [hupd]
  show ({ r with engineers := dictSet r.engineers (EngineerService.applyUpdate e u) } :
      Repo).get_by_id i = _
  unfold InMemoryEngineerRepository.get_by_id
  simp only
  rw [dictSet_eq_map _ _ hany, ← hid]
  exact find?_map_replAt_self _ _ hany

/-- The rate-only partial update used by witnesses. -/
def rateOnlyUpdate : EngineerUpdate :=
  { name := none, email := none, specialty := none,
    hourly_rate := some 150, certification_level := none, is_available := none }

/-- Witness for C4: a rate-only update of the stored record 1 succeeds and
the stored record afterwards is the field merge. -/
theorem C4_witness :
    wRepo1.get_by_id 1 = some wEng1
    ∧ (EngineerService.update_engineer wRepo1 1 rateOnlyUpdate).1
        = .ok (EngineerService.applyUpdate wEng1 rateOnlyUpdate)
    ∧ ((EngineerService.update_engineer wRepo1 1 rateOnlyUpdate).2).get_by_id 1
        = some (EngineerService.applyUpdate wEng1 rateOnlyUpdate)
    ∧ (EngineerService.applyUpdate wEng1 rateOnlyUpdate).certifications
        = wEng1.certifications :=
  ⟨by decide,
   (C4_update_is_field_merge wRepo1 1 rateOnlyUpdate wEng1 (by decide)).1,
   (C4_update_is_field_merge wRepo1 1 rateOnlyUpdate wEng1 (by decide)).2.1,
   (C4_update_is_field_merge wRepo1 1 rateOnlyUpdate wEng1 (by decide)).2.2.2.2.2.2.2.2.2.1⟩

/-- C5: in any state reachable from the empty store, deleting a present id
makes `get_by_id` of that id absent, and no record created by any later
`create_engineer`, after any further sequence of service operations, is ever
assigned that id again (the id counter never decreases and deleting does not
touch it). -/
theorem C5_deleted_id_never_reused (ops0 ops1 : List ServiceOp) (i : Nat)
    (d : EngineerCreate) (now : Nat)
    (hpresent : ((runOps ops0 InMemoryEngineerRepository.empty).get_by_id i).isSome
      = true) :
    (((runOps ops0 InMemoryEngineerRepository.empty).delete i).2).get_by_id i = none
    ∧ ∀ eng,
        (EngineerService.create_engineer
          (runOps ops1 (((runOps ops0 InMemoryEngineerRepository.empty).delete i).2))
          d now).1 = .ok eng →
        eng.id ≠ i := by
  refine ⟨get_by_id_delete _ i, ?_⟩
  intro eng heng
  have hInv := runOps_inv ops0 InMemoryEngineerRepository.empty inv_empty
  obtain ⟨e, he⟩ := Option.isSome_iff_exists.mp hpresent
  obtain ⟨hmem, hid⟩ := get_by_id_some he
  have hlt : i < (runOps ops0 InMemoryEngineerRepository.empty).next_id :=
    hid ▸ hInv.2.1 e hmem
  have hdel := delete_next_id (runOps ops0 InMemoryEngineerRepository.empty) i
  have hmono := next_id_le_runOps ops1
    (((runOps ops0 InMemoryEngineerRepository.empty).delete i).2)
  have hcreated : eng.id
      = (runOps ops1
          (((runOps ops0 InMemoryEngineerRepository.empty).delete i).2)).next_id :=
    create_ok_id _ _ eng heng
  omega

/-- The record assigned by the create that follows the deletion in the C5
witness scenario (id 2, never the deleted id 1). -/
def wCreatedAfterDelete : Engineer :=
  { id := 2, name := "Bob", email := "bob@x", specialty := "cloud",
    hourly_rate := 120, certification_level := .expert, certifications := [],
    is_available := true, created_at := 0 }

/-- Witness for C5: create Alice (id 1), delete id 1, create Bob: Bob gets
id 2, not the deleted id 1. -/
theorem C5_witness :
    ((runOps [ServiceOp.create sampleCreateA 0]
        InMemoryEngineerRepository.empty).get_by_id 1).isSome = true
    ∧ (((runOps [ServiceOp.create sampleCreateA 0]
        InMemoryEngineerRepository.empty).delete 1).2).get_by_id 1 = none
    ∧ wCreatedAfterDelete.id ≠ 1 :=
  ⟨by decide,
   (C5_deleted_id_never_reused [ServiceOp.create sampleCreateA 0] [] 1
     sampleCreateB 0 (by decide)).1,
   (C5_deleted_id_never_reused [ServiceOp.create sampleCreateA 0] [] 1
     sampleCreateB 0 (by decide)).2 wCreatedAfterDelete (by rfl)⟩

lemma add_certification_twice_aux (r : Repo) (i : Nat) (c : CertificationCreate)
    (hInv : r.Inv) :
    (EngineerService.add_certification
        ((EngineerService.add_certification r i c).2) i c).2
      = (EngineerService.add_certification r i c).2
    ∧ ∀ e1, ((EngineerService.add_certification r i c).2).get_by_id i = some e1
        → e1.certifications.count c.cert_code = 1 := by
  cases hgb : r.get_by_id i with
  | none =>
    have herr : EngineerService.get_engineer r i = .error .engineerNotFound := by
      unfold EngineerService.get_engineer
      rw [hgb]
    have h1 : EngineerService.add_certification r i c = (.error .engineerNotFound, r) := by
      unfold EngineerService.add_certification
      rw [herr]
    refine ⟨by simp [h1], ?_⟩
    intro e1 h
    rw [h1] at h
    simp only at h
    rw [hgb] at h
    cases h
  | some e =>
    have hok : EngineerService.get_engineer r i = .ok e := get_engineer_eq_ok.mpr hgb
    obtain ⟨hmem, hid⟩ := get_by_id_some hgb
    have hengid : (e.add_certification c.cert_code).id = i := by
      rw [add_certification_id, hid]
    have hany : r.engineers.any
        (fun x => x.id == (e.add_certification c.cert_code).id) = true :=
      List.any_eq_true.mpr ⟨e, hmem, by simp [hengid, hid]⟩
    have h1 : EngineerService.add_certification r i c
        = (.ok (e.add_certification c.cert_code),
           { r with engineers := dictSet r.engineers (e.add_certification c.cert_code) }) := by
      unfold EngineerService.add_certification
      rw [hok]
      exact update_of_present r _ hany
    have hmapped : dictSet r.engineers (e.add_certification c.cert_code)
        = r.engineers.map (replAt (e.add_certification c.cert_code)) :=
      dictSet_eq_map _ _ hany
    have hgb1 : ({ r with
        engineers := dictSet r.engineers (e.add_certification c.cert_code) } :
          Repo).get_by_id i = some (e.add_certification c.cert_code) := by
      unfold InMemoryEngineerRepository.get_by_id
      simp only [hmapped]
      rw [← hengid]
      exact find?_map_replAt_self _ _ hany
    have hok1 : EngineerService.get_engineer
        ({ r with engineers := dictSet r.engineers (e.add_certification c.cert_code) } :
          Repo) i = .ok (e.add_certification c.cert_code) :=
      get_engineer_eq_ok.mpr hgb1
    have heng2 : (e.add_certification c.cert_code).add_certification c.cert_code
        = e.add_certification c.cert_code :=
      add_certification_of_mem _ _ (mem_add_certification e c.cert_code)
    have hmem1 : (e.add_certification c.cert_code)
        ∈ (dictSet r.engineers (e.add_certification c.cert_code)) :=
      List.mem_of_find?_eq_some hgb1
    have hany1 : (dictSet r.engineers (e.add_certification c.cert_code)).any
        (fun x => x.id == (e.add_certification c.cert_code).id) = true :=
      List.any_eq_true.mpr ⟨_, hmem1, by simp⟩
    have hfix : dictSet (dictSet r.engineers (e.add_certification c.cert_code))
        (e.add_certification c.cert_code)
        = dictSet r.engineers (e.add_certification c.cert_code) := by
      rw [dictSet_eq_map _ _ hany1]
      refine map_replAt_eq_self _ _ ?_
      intro x hx hxid
      rw [hmapped] at hx
      rcases mem_map_replAt _ _ _ hx with h | ⟨_, hne⟩
      · exact h
      · exact absurd hxid hne
    have h2 : EngineerService.add_certification
        ({ r with engineers := dictSet r.engineers (e.add_certification c.cert_code) } :
          Repo) i c
        = (.ok (e.add_certification c.cert_code),
           { r with engineers := dictSet r.engineers (e.add_certification c.cert_code) }) := by
      unfold EngineerService.add_certification
      rw [hok1]
      dsimp only
      rw [heng2]
      rw [update_of_present _ _ hany1]
      simp only [hfix]
    constructor
    · rw [h1]
      simp only
      rw [h2]
    · intro e1 h
      rw [h1] at h
      simp only at h
      rw [hgb1] at h
      injection h with h
      subst h
      by_cases hc : c.cert_code ∈ e.certifications
      · rw [add_certification_of_mem e _ hc]
        exact List.count_eq_one_of_mem (hInv.2.2 e hmem) hc
      · unfold Engineer.add_certification
        rw [if_neg hc]
        simp only
        rw [List.count_append, List.count_eq_zero_of_not_mem hc]
        simp

/-- C7: in every state reachable through the Service's public operations no
stored record has a duplicate certification entry, and `add_certification`
is idempotent: a second call with the same code on the same engineer changes
nothing, and the stored record then holds exactly one occurrence of the
code. -/
theorem C7_certifications_nodup_and_add_idempotent (ops : List ServiceOp)
    (i : Nat) (c : CertificationCreate) :
    (∀ e ∈ (runOps ops InMemoryEngineerRepository.empty).engineers,
        e.certifications.Nodup)
    ∧ (EngineerService.add_certification
        ((EngineerService.add_certification
          (runOps ops InMemoryEngineerRepository.empty) i c).2) i c).2
      = (EngineerService.add_certification
          (runOps ops InMemoryEngineerRepository.empty) i c).2
    ∧ ∀ e1, ((EngineerService.add_certification
          (runOps ops InMemoryEngineerRepository.empty) i c).2).get_by_id i
        = some e1
        → e1.certifications.count c.cert_code = 1 := by
  have hInv := runOps_inv ops InMemoryEngineerRepository.empty inv_empty
  have h := add_certification_twice_aux
    (runOps ops InMemoryEngineerRepository.empty) i c hInv
  exact ⟨hInv.2.2, h.1, h.2⟩

/-- The stored record of the C7 witness after the certification add. -/
def wAliceCert : Engineer := { wEng1 with certifications := ["AZ-104"] }

/-- Witness for C7: create Alice, add "AZ-104" twice: the second call leaves
the state unchanged and the stored list holds the code exactly once. -/
theorem C7_witness :
    (EngineerService.add_certification
        ((EngineerService.add_certification
          (runOps [ServiceOp.create sampleCreateA 0]
            InMemoryEngineerRepository.empty) 1
          { cert_code := "AZ-104", platform := .azure }).2) 1
        { cert_code := "AZ-104", platform := .azure }).2
      = (EngineerService.add_certification
          (runOps [ServiceOp.create sampleCreateA 0]
            InMemoryEngineerRepository.empty) 1
          { cert_code := "AZ-104", platform := .azure }).2
    ∧ wAliceCert.certifications.count "AZ-104" = 1 :=
  ⟨(C7_certifications_nodup_and_add_idempotent
      [ServiceOp.create sampleCreateA 0] 1
      { cert_code := "AZ-104", platform := .azure }).2.1,
   (C7_certifications_nodup_and_add_idempotent
      [ServiceOp.create sampleCreateA 0] 1
      { cert_code := "AZ-104", platform := .azure }).2.2 wAliceCert (by decide)⟩

/-! ## Partition of the available records by certification level -/

lemma revenue_partition (l : List Engineer) :
    ((l.filter (fun e => e.is_available)).map
        (fun e => e.calculate_monthly_revenue 160)).sum
      = ((l.filter (fun e => e.certification_level == CertificationLevel.junior
            && e.is_available)).map (fun e => e.calculate_monthly_revenue 160)).sum
      + ((l.filter (fun e => e.certification_level == CertificationLevel.mid
            && e.is_available)).map (fun e => e.calculate_monthly_revenue 160)).sum
      + ((l.filter (fun e => e.certification_level == CertificationLevel.senior
            && e.is_available)).map (fun e => e.calculate_monthly_revenue 160)).sum
      + ((l.filter (fun e => e.certification_level == CertificationLevel.expert
            && e.is_available)).map (fun e => e.calculate_monthly_revenue 160)).sum := by
  induction l with
  | nil => simp
  | cons a t ih =>
    by_cases hav : a.is_available = true
    · cases hcl : a.certification_level <;>
        · simp only [List.filter_cons, hcl, hav]
          simp only [Bool.and_true, Bool.and_false, beq_self_eq_true, beq_iff_eq,
            reduceCtorEq, if_true, if_false, ite_true, ite_false, List.map_cons,
            List.sum_cons]
          rw [ih]
          ring
    · have hav' : a.is_available = false := Bool.eq_false_iff.mpr hav
      simp [List.filter_cons, hav', ih]

lemma count_partition (l : List Engineer) :
    (l.filter (fun e => e.is_available)).length
      = (l.filter (fun e => e.certification_level == CertificationLevel.junior
            && e.is_available)).length
      + (l.filter (fun e => e.certification_level == CertificationLevel.mid
            && e.is_available)).length
      + (l.filter (fun e => e.certification_level == CertificationLevel.senior
            && e.is_available)).length
      + (l.filter (fun e => e.certification_level == CertificationLevel.expert
            && e.is_available)).length := by
  induction l with
  | nil => simp
  | cons a t ih =>
    by_cases hav : a.is_available = true
    · cases hcl : a.certification_level <;>
        · simp only [List.filter_cons, hcl, hav]
          simp only [Bool.and_true, Bool.and_false, beq_self_eq_true, beq_iff_eq,
            reduceCtorEq, if_true, if_false, ite_true, ite_false, List.length_cons]
          rw [ih]
          omega
    · have hav' : a.is_available = false := Bool.eq_false_iff.mpr hav
      simp [List.filter_cons, hav', ih]

/-! ## Concrete store for the C8 example scenario: three available records
with rates 100, 120, 90 and levels mid, expert, mid -/

def demoMid100 : Engineer :=
  { id := 1, name := "E1", email := "e1@x", specialty := "cloud",
    hourly_rate := 100, certification_level := .mid, certifications := [],
    is_available := true, created_at := 0 }

def demoExpert120 : Engineer :=
  { id := 2, name := "E2", email := "e2@x", specialty := "cloud",
    hourly_rate := 120, certification_level := .expert, certifications := [],
    is_available := true, created_at := 0 }

def demoMid90 : Engineer :=
  { id := 3, name := "E3", email := "e3@x", specialty := "cloud",
    hourly_rate := 90, certification_level := .mid, certifications := [],
    is_available := true, created_at := 0 }

def demoRepo : Repo :=
  { engineers := [demoMid100, demoExpert120, demoMid90], next_id := 4 }

/-- C8: the revenue report's total equals the sum of `hourly_rate × 160` over
the available records; the per-level breakdown carries an entry for each of
the four levels (junior, mid, senior, expert) even when a level is empty; and
on three available records with rates 100, 120, 90 and levels mid, expert,
mid the total is 49600 and the mid entry has count 2. -/
theorem C8_revenue_report_total_and_breakdown (r : Repo) :
    ((EngineerService.get_revenue_report r).total_monthly_revenue_potential
      = ((r.engineers.filter (fun e => e.is_available)).map
          (fun e => e.hourly_rate * 160)).sum)
    ∧ (((EngineerService.get_revenue_report r).by_certification_level.map Prod.fst)
      = ["junior", "mid", "senior", "expert"])
    ∧ ((EngineerService.get_revenue_report demoRepo).total_monthly_revenue_potential
      = 49600)
    ∧ ((((EngineerService.get_revenue_report demoRepo).by_certification_level.lookup
        "mid").map EngineerService.LevelStats.count) = some 2) := by
  refine ⟨?_, ?_, ?_, ?_⟩
  · unfold EngineerService.get_revenue_report
    simp only [InMemoryEngineerRepository.get_all]
    congr 1
  · unfold EngineerService.get_revenue_report
    simp [CertificationLevel.all, CertificationLevel.value, List.map_map]
  · norm_num [EngineerService.get_revenue_report, demoRepo, demoMid100,
      demoExpert120, demoMid90, InMemoryEngineerRepository.get_all,
      Engineer.calculate_monthly_revenue, List.filter, List.map, List.sum]
  · decide

/-- C10: in every revenue report the total monthly revenue equals the sum of
the four per-level monthly revenues, and the number of available engineers
equals the sum of the four per-level counts (each available record falls in
exactly one certification level). -/
theorem C10_report_breakdown_sums_to_totals (r : Repo) :
    (EngineerService.get_revenue_report r).total_monthly_revenue_potential
      = ((EngineerService.get_revenue_report r).by_certification_level.map
          (fun p => p.2.monthly_revenue)).sum
    ∧ (EngineerService.get_revenue_report r).total_available_engineers
      = ((EngineerService.get_revenue_report r).by_certification_level.map
          (fun p => p.2.count)).sum := by
  constructor
  · unfold EngineerService.get_revenue_report
    simp only [InMemoryEngineerRepository.get_all, CertificationLevel.all,
      List.map_cons, List.map_nil, List.sum_cons, List.sum_nil]
    rw [revenue_partition]
    ring
  · unfold EngineerService.get_revenue_report
    simp only [InMemoryEngineerRepository.get_all, CertificationLevel.all,
      List.map_cons, List.map_nil, List.sum_cons, List.sum_nil]
    rw [count_partition]
    omega
